import Mathlib

/-!
# CsharpFlow — verification of the scheduler spec and the repository tooling

The repository ships Python tooling (`build.py`, `run_tests.py`, demo
scripts) around a C# coroutine engine whose own sources are not part of
the repository snapshot; the design document describes that engine
(Kernel, Task, Sequence, Barrier, Trigger, Deferred Value, Timer).
Definitions for the engine are therefore modelled from the spec's words;
definitions for `run_command` and `generate_report` are translated from
the Python sources.
-/

namespace Flow

/-- Modelled from the spec: the Task state machine's states
(`Created`, `Running`, `Suspended`, `Completed`, `Faulted`, `Cancelled`). -/
inductive TaskState
  | created
  | running
  | suspended
  | completed
  | faulted
  | cancelled
deriving DecidableEq, Repr

/-- Modelled from the spec: the terminal states are
`Completed`, `Faulted`, `Cancelled`. -/
def TaskState.isTerminal : TaskState → Bool
  | .completed => true
  | .faulted => true
  | .cancelled => true
  | _ => false

/-- Modelled from the spec: the three possible terminal outcomes of a unit
of work (completion, fault, cancellation). -/
inductive Outcome
  | ok
  | fault
  | cancel
deriving DecidableEq, Repr

/-- Modelled from the spec: the terminal `TaskState` an outcome maps to. -/
def Outcome.toState : Outcome → TaskState
  | .ok => .completed
  | .fault => .faulted
  | .cancel => .cancelled

/-! ## Leaf task model

Modelled from the spec: a leaf task is a suspendable unit that reports
`Suspended` for a scripted number of resumes and then reaches a scripted
terminal outcome; a cooperative cancellation request is observed at the
next suspension point. -/

/-- Modelled from the spec: a leaf task of the engine, missing from the
repository snapshot. `rem` counts the suspension points left before the
scripted terminal outcome `final`; `cancelRequested` is the cooperative
cancellation flag; `st` is the current `TaskState`. -/
structure LeafTask where
  rem : Nat
  final : Outcome
  cancelRequested : Bool
  st : TaskState
deriving DecidableEq, Repr

/-- Modelled from the spec: `Resume()` advances the task by one logical
unit and returns its updated state; once terminal the state never changes;
a pending cancellation request is observed at the next suspension point. -/
def LeafTask.resume (t : LeafTask) : LeafTask :=
  if t.st.isTerminal then t
  else if t.cancelRequested then { t with st := .cancelled }
  else match t.rem with
    | 0 => { t with st := t.final.toState }
    | n + 1 => { t with rem := n, st := .suspended }

/-- Modelled from the spec: requesting cancellation sets the cooperative
flag; it does not change the state by itself. -/
def LeafTask.requestCancel (t : LeafTask) : LeafTask :=
  { t with cancelRequested := true }

/-- Modelled from the spec: the operations a caller can apply to a task. -/
inductive TaskOp
  | resume
  | cancel
deriving DecidableEq, Repr

/-- Apply one operation to a leaf task. -/
def LeafTask.applyOp (t : LeafTask) : TaskOp → LeafTask
  | .resume => t.resume
  | .cancel => t.requestCancel

/-- Apply a sequence of operations to a leaf task, first element first. -/
def LeafTask.applyOps (t : LeafTask) : List TaskOp → LeafTask
  | [] => t
  | op :: ops => (t.applyOp op).applyOps ops

end Flow

namespace Flow

/-- A terminal leaf task is left unchanged by any single operation. -/
theorem LeafTask.applyOp_of_terminal (t : LeafTask) (op : TaskOp)
    (h : t.st.isTerminal = true) : (t.applyOp op).st = t.st := by
  cases op with
  | resume => simp [LeafTask.applyOp, LeafTask.resume, h]
  | cancel => simp [LeafTask.applyOp, LeafTask.requestCancel]

theorem LeafTask.applyOp_terminal_stable (t : LeafTask) (op : TaskOp)
    (h : t.st.isTerminal = true) : (t.applyOp op).st.isTerminal = true := by
  rw [LeafTask.applyOp_of_terminal t op h]; exact h

/-! ## Timer

Modelled from the spec: a periodic Timer accumulates elapsed simulated
time and fires one notification per whole interval multiple crossed;
a single large step delta produces one fire per crossed interval
(catch-up), not a single merged fire. -/

/-- Modelled from the spec: a periodic Timer of the engine, missing from
the repository snapshot: configured `interval`, accumulated `elapsed`
simulated time and the running `fireCount`. -/
structure PeriodicTimer where
  interval : Nat
  elapsed : Nat
  fireCount : Nat
deriving DecidableEq, Repr

/-- A fresh periodic Timer with the given interval. -/
def PeriodicTimer.mk0 (interval : Nat) : PeriodicTimer :=
  { interval := interval, elapsed := 0, fireCount := 0 }

/-- Modelled from the spec: stepping a periodic Timer by `dt` advances
elapsed time and emits one numbered fire notification per whole interval
multiple newly crossed, in order. -/
def PeriodicTimer.step (t : PeriodicTimer) (dt : Nat) :
    PeriodicTimer × List Nat :=
  let e' := t.elapsed + dt
  let crossed := e' / t.interval - t.elapsed / t.interval
  ({ t with elapsed := e', fireCount := t.fireCount + crossed },
   (List.range crossed).map (fun i => t.fireCount + i + 1))

/-! ## Deferred Value (Future)

Modelled from the spec: a single-writer, multiple-reader value cell;
`Resolve`/`Fail` publishes exactly one terminal result, a second call is
rejected with an error and leaves already-resumed waiters untouched;
waiters are resumed in FIFO registration order. -/

/-- Modelled from the spec: the state of a Deferred Value cell — not yet
resolved (holding the FIFO list of registered waiter ids), resolved with
a value, or failed with a fault. -/
inductive DVState
  | unresolved (waiters : List Nat)
  | resolvedWith (v : Nat)
  | failedWith (f : Nat)
deriving DecidableEq, Repr

/-- The payload a waiter is delivered: the resolved value or the fault. -/
inductive DVPayload
  | val (v : Nat)
  | flt (f : Nat)
deriving DecidableEq, Repr

/-- A delivery event: waiter `wid` received `payload`. -/
structure Delivery where
  wid : Nat
  payload : DVPayload
deriving DecidableEq, Repr

/-- Modelled from the spec: `Resolve(value)` — on an unresolved cell,
publishes the value and resumes every registered waiter in FIFO order;
on an already-resolved or failed cell, returns an error and changes
nothing. Returns (new state, caller result, deliveries performed). -/
def DVState.resolve (s : DVState) (v : Nat) :
    DVState × Except Unit Unit × List Delivery :=
  match s with
  | .unresolved ws =>
      (.resolvedWith v, .ok (), ws.map (fun w => ⟨w, .val v⟩))
  | s => (s, .error (), [])

/-- Modelled from the spec: `Fail(fault)` — on an unresolved cell,
publishes the fault and resumes every registered waiter in FIFO order;
on an already-resolved or failed cell, returns an error and changes
nothing. -/
def DVState.fail (s : DVState) (f : Nat) :
    DVState × Except Unit Unit × List Delivery :=
  match s with
  | .unresolved ws =>
      (.failedWith f, .ok (), ws.map (fun w => ⟨w, .flt f⟩))
  | s => (s, .error (), [])

/-- Modelled from the spec: `Await()` from waiter `wid` — registers the
waiter at the back of the FIFO list when the cell is unresolved; when the
cell already carries a value or fault, the waiter is resumed immediately
with it. -/
def DVState.await (s : DVState) (wid : Nat) : DVState × List Delivery :=
  match s with
  | .unresolved ws => (.unresolved (ws ++ [wid]), [])
  | .resolvedWith v => (s, [⟨wid, .val v⟩])
  | .failedWith f => (s, [⟨wid, .flt f⟩])

/-- The operations a client can apply to a Deferred Value. -/
inductive DVOp
  | awaitOp (wid : Nat)
  | resolveOp (v : Nat)
  | failOp (f : Nat)
deriving DecidableEq, Repr

/-- Apply one operation, returning the new state and its deliveries. -/
def DVState.applyOp (s : DVState) : DVOp → DVState × List Delivery
  | .awaitOp wid => s.await wid
  | .resolveOp v => ((s.resolve v).1, (s.resolve v).2.2)
  | .failOp f => ((s.fail f).1, (s.fail f).2.2)

/-- Run a list of operations from a state, accumulating all deliveries. -/
def DVState.run (s : DVState) : List DVOp → DVState × List Delivery
  | [] => (s, [])
  | op :: ops =>
      let (s1, ds1) := s.applyOp op
      let (s2, ds2) := s1.run ops
      (s2, ds1 ++ ds2)

/-- Number of deliveries made to waiter `wid` in a delivery log. -/
def deliveredCount (log : List Delivery) (wid : Nat) : Nat :=
  (log.filter (fun d => d.wid = wid)).length

/-- Number of `Await` registrations by waiter `wid` in an op list. -/
def awaitCount (ops : List DVOp) (wid : Nat) : Nat :=
  (ops.filter (fun op => op = .awaitOp wid)).length

/-- Waiter-slots of `wid` still pending inside a cell state. -/
def DVState.pendingCount (s : DVState) (wid : Nat) : Nat :=
  match s with
  | .unresolved ws => (ws.filter (fun w => w = wid)).length
  | _ => 0

end Flow

namespace BuildPy

/-- The Python exceptions `subprocess.run` can raise here, plus the
process-failure exception produced by `check=True`
(`build.py`, `run_command`). -/
inductive PyExc
  | calledProcessError (returncode : Int)
  | fileNotFoundError
  | permissionError
  | otherOSError
deriving DecidableEq, Repr

/-- What the operating system does when asked to spawn the command:
the process runs to completion with an exit code, the executable is not
found, or spawning fails with another `OSError` (for example a
`PermissionError` on a file that exists but is not executable). -/
inductive ProcOutcome
  | completes (code : Int)
  | execNotFound
  | execPermissionDenied
deriving DecidableEq, Repr

/-- `subprocess.run(command, check=True, ...)` as called by
`BuildScript.run_command` (`build.py` line 54): returns the completed
process's exit code, raises `CalledProcessError` when `check=True` and
the exit code is nonzero, raises `FileNotFoundError` when the executable
is missing, and raises the corresponding `OSError` otherwise. -/
def subprocessRunCheck (o : ProcOutcome) : Except PyExc Int :=
  match o with
  | .completes c => if c ≠ 0 then .error (.calledProcessError c) else .ok c
  | .execNotFound => .error .fileNotFoundError
  | .execPermissionDenied => .error .permissionError

/-- `BuildScript.run_command` (`build.py` lines 48-67): runs the command
with `check=True`; returns `True` on success, catches
`subprocess.CalledProcessError` and `FileNotFoundError` and returns
`False` for them; any other exception propagates to the caller. -/
def run_command (o : ProcOutcome) : Except PyExc Bool :=
  match subprocessRunCheck o with
  | .ok _ => .ok true
  | .error (.calledProcessError _) => .ok false
  | .error .fileNotFoundError => .ok false
  | .error e => .error e

end BuildPy

namespace RunTestsPy

/-- `TestResult` (`run_tests.py` lines 28-31). -/
inductive TestResult
  | PASS
  | FAIL
  | SKIP
deriving DecidableEq, Repr

/-- `TestSuite` (`run_tests.py` lines 33-40), the fields
`generate_report` reads. -/
structure TestSuite where
  test_count : Nat
  result : TestResult
  duration : Nat
deriving DecidableEq, Repr

/-- `BuildReport` (`run_tests.py` lines 42-48), the fields
`generate_report` reads. -/
structure BuildReport where
  success : Bool
  duration : Nat
deriving DecidableEq, Repr

/-- The suites in the `FAIL` state (`run_tests.py` line 427:
`failed_suites = [s for s in self.test_suites if s.result == TestResult.FAIL]`). -/
def failedSuites (suites : List TestSuite) : List TestSuite :=
  suites.filter (fun s => s.result = .FAIL)

/-- `CsharpFlowTester.generate_report` (`run_tests.py` lines 405-452),
its returned verdict: `True` exactly when the build succeeded and no
test suite is in the `FAIL` state (line 447:
`if build_report.success and len(failed_suites) == 0`). -/
def generate_report (build_report : BuildReport)
    (suites : List TestSuite) : Bool :=
  build_report.success && (failedSuites suites).length == 0

end RunTestsPy

namespace Flow

/-! ## Sequence

Modelled from the spec: a Sequence keeps a current index into its ordered
child list, resumes only the current child each step, advances only when
the current child completes, faults immediately when the current child
faults, cancels when it is cancelled, and completes immediately when the
child list is exhausted (in particular when it is empty). -/

/-- Modelled from the spec: a scripted child of a combinator — it reports
`Suspended` for `dur` resumes and reaches the terminal `outcome` on the
following resume. -/
structure SChild where
  dur : Nat
  outcome : Outcome
deriving DecidableEq, Repr

/-- An observable event of a combinator's execution: child `j` was
resumed, or child `j` reached terminal outcome `o`. -/
inductive SeqEv
  | res (j : Nat)
  | done (j : Nat) (o : Outcome)
deriving DecidableEq, Repr

/-- Modelled from the spec: the running state of a Sequence — current
child index, resumes left before the current child's terminal outcome,
and the Sequence's own `TaskState`. -/
structure SeqSt where
  idx : Nat
  rem : Nat
  st : TaskState
deriving DecidableEq, Repr

/-- A freshly constructed Sequence over children `cs`. -/
def Sequence.init (cs : List SChild) : SeqSt :=
  { idx := 0, rem := (cs.headD ⟨0, .ok⟩).dur, st := .created }

/-- Modelled from the spec: one Kernel step of a Sequence — resume only
the current child; when it completes, advance the index (completing the
Sequence when the list is exhausted); when it faults or is cancelled,
the Sequence reaches the same terminal state and resumes nothing
further. An empty Sequence completes on its first resume. -/
def Sequence.step (cs : List SChild) (s : SeqSt) : SeqSt × List SeqEv :=
  if s.st.isTerminal then (s, [])
  else match cs[s.idx]? with
    | none => ({ s with st := .completed }, [])
    | some c =>
      match s.rem with
      | n + 1 => ({ s with rem := n, st := .running }, [.res s.idx])
      | 0 =>
        match c.outcome with
        | .ok =>
          let i := s.idx + 1
          let s' : SeqSt :=
            match cs[i]? with
            | some c' => { idx := i, rem := c'.dur, st := .running }
            | none => { idx := i, rem := 0, st := .completed }
          (s', [.res s.idx, .done s.idx .ok])
        | .fault => ({ s with st := .faulted }, [.res s.idx, .done s.idx .fault])
        | .cancel => ({ s with st := .cancelled }, [.res s.idx, .done s.idx .cancel])

/-- Run a Sequence for `n` Kernel steps, accumulating the event log. -/
def Sequence.run (cs : List SChild) : Nat → SeqSt × List SeqEv
  | 0 => (Sequence.init cs, [])
  | n + 1 =>
    let p := Sequence.run cs n
    let q := Sequence.step cs p.1
    (q.1, p.2 ++ q.2)

/-- `afterFirst a b l` holds when no occurrence of `b` appears in `l`
before the first occurrence of `a`: every `b` in `l` is strictly
preceded by an `a`. -/
def afterFirst (a b : SeqEv) : List SeqEv → Bool
  | [] => true
  | x :: xs => if x = b then false else if x = a then true else afterFirst a b xs

theorem afterFirst_append_single (a b x : SeqEv) (l : List SeqEv)
    (h : afterFirst a b l = true) (hx : x ≠ b ∨ a ∈ l) :
    afterFirst a b (l ++ [x]) = true := by
  induction l with
  | nil =>
    rcases hx with hx | hx
    · simp [afterFirst, hx]
    · simp at hx
  | cons y ys ih =>
    rw [List.cons_append]
    by_cases hyb : y = b
    · rw [afterFirst, if_pos hyb] at h; exact absurd h (by simp)
    · by_cases hya : y = a
      · rw [afterFirst, if_neg (by simp [hyb]), if_pos hya]
      · rw [afterFirst, if_neg (by simp [hyb]), if_neg hya]
        rw [afterFirst, if_neg hyb, if_neg hya] at h
        refine ih h ?_
        rcases hx with hx | hx
        · exact Or.inl hx
        · rcases List.mem_cons.mp hx with hx | hx
          · exact absurd hx.symm hya
          · exact Or.inr hx

/-- The invariant tying a Sequence state to its accumulated event log. -/
structure SeqInv (s : SeqSt) (log : List SeqEv) : Prop where
  resLe : ∀ j, SeqEv.res j ∈ log → j ≤ s.idx
  doneOk : ∀ j, j < s.idx → SeqEv.done j .ok ∈ log
  ordered : ∀ k, afterFirst (.done k .ok) (.res (k + 1)) log = true
  stuck : ∀ j o, SeqEv.done j o ∈ log → o ≠ .ok →
    s.st.isTerminal = true ∧ s.idx = j

theorem SeqInv.init (cs : List SChild) : SeqInv (Sequence.init cs) [] := by
  refine ⟨?_, ?_, ?_, ?_⟩
  · intro j hj; simp at hj
  · intro j hj; simp [Sequence.init] at hj
  · intro k; rfl
  · intro j o hj; simp at hj

theorem ordered_append_res (log : List SeqEv) (i : Nat)
    (hord : ∀ k, afterFirst (.done k .ok) (.res (k + 1)) log = true)
    (hdone : ∀ k, i = k + 1 → SeqEv.done k .ok ∈ log) :
    ∀ k, afterFirst (.done k .ok) (.res (k + 1)) (log ++ [.res i]) = true := by
  intro k
  refine afterFirst_append_single _ _ _ _ (hord k) ?_
  by_cases hik : i = k + 1
  · exact Or.inr (hdone k hik)
  · exact Or.inl (by simp [hik])

theorem ordered_append_done (log : List SeqEv) (j : Nat) (o : Outcome)
    (hord : ∀ k, afterFirst (.done k .ok) (.res (k + 1)) log = true) :
    ∀ k, afterFirst (.done k .ok) (.res (k + 1)) (log ++ [.done j o]) = true := by
  intro k
  exact afterFirst_append_single _ _ _ _ (hord k) (Or.inl (by simp))

theorem SeqInv.step_pres (cs : List SChild) (s : SeqSt) (log : List SeqEv)
    (h : SeqInv s log) :
    SeqInv (Sequence.step cs s).1 (log ++ (Sequence.step cs s).2) := by
  by_cases hterm : s.st.isTerminal = true
  · have hstep : Sequence.step cs s = (s, []) := by
      unfold Sequence.step; simp [hterm]
    rw [hstep]; simpa using h
  · cases hc : cs[s.idx]? with
    | none =>
      have hstep : Sequence.step cs s = ({ s with st := .completed }, []) := by
        unfold Sequence.step; simp [hterm, hc]
      rw [hstep]
      refine ⟨?_, ?_, ?_, ?_⟩ <;> dsimp only
      · intro j hj; exact h.resLe j (by simpa using hj)
      · intro j hj; simpa using h.doneOk j hj
      · intro k; simpa using h.ordered k
      · intro j o hj ho
        exact absurd (h.stuck j o (by simpa using hj) ho).1 hterm
    | some c =>
      cases hrem : s.rem with
      | succ n =>
        have hstep : Sequence.step cs s =
            ({ s with rem := n, st := .running }, [.res s.idx]) := by
          unfold Sequence.step; simp [hterm, hc, hrem]
        rw [hstep]
        refine ⟨?_, ?_, ?_, ?_⟩ <;> dsimp only
        · intro j hj
          rcases List.mem_append.mp hj with hj | hj
          · exact h.resLe j hj
          · simp at hj; omega
        · intro j hj
          exact List.mem_append_left _ (h.doneOk j hj)
        · exact ordered_append_res log s.idx h.ordered
            (fun k hk => h.doneOk k (by omega))
        · intro j o hj ho
          rcases List.mem_append.mp hj with hj | hj
          · exact absurd (h.stuck j o hj ho).1 hterm
          · simp at hj
      | zero =>
        cases ho : c.outcome with
        | ok =>
          cases hc2 : cs[s.idx + 1]? with
          | some c' =>
            have hstep : Sequence.step cs s =
                ({ idx := s.idx + 1, rem := c'.dur, st := .running },
                 [.res s.idx, .done s.idx .ok]) := by
              unfold Sequence.step; simp [hterm, hc, hrem, ho, hc2]
            rw [hstep]
            have hlog : log ++ [SeqEv.res s.idx, SeqEv.done s.idx .ok] =
                (log ++ [SeqEv.res s.idx]) ++ [SeqEv.done s.idx .ok] := by
              simp
            refine ⟨?_, ?_, ?_, ?_⟩ <;> dsimp only
            · intro j hj
              rcases List.mem_append.mp hj with hj | hj
              · have := h.resLe j hj; omega
              · simp at hj
                omega
            · intro j hj
              simp only [Nat.lt_succ_iff, Nat.le_iff_lt_or_eq] at hj
              rcases hj with hj | hj
              · exact List.mem_append_left _ (h.doneOk j hj)
              · subst hj; simp
            · rw [hlog]
              exact ordered_append_done _ s.idx .ok
                (ordered_append_res log s.idx h.ordered
                  (fun k hk => h.doneOk k (by omega)))
            · intro j o hj hne
              rcases List.mem_append.mp hj with hj | hj
              · exact absurd (h.stuck j o hj hne).1 hterm
              · simp at hj
                exact absurd hj.2 hne
          | none =>
            have hstep : Sequence.step cs s =
                ({ idx := s.idx + 1, rem := 0, st := .completed },
                 [.res s.idx, .done s.idx .ok]) := by
              unfold Sequence.step; simp [hterm, hc, hrem, ho, hc2]
            rw [hstep]
            have hlog : log ++ [SeqEv.res s.idx, SeqEv.done s.idx .ok] =
                (log ++ [SeqEv.res s.idx]) ++ [SeqEv.done s.idx .ok] := by
              simp
            refine ⟨?_, ?_, ?_, ?_⟩ <;> dsimp only
            · intro j hj
              rcases List.mem_append.mp hj with hj | hj
              · have := h.resLe j hj; omega
              · simp at hj
                omega
            · intro j hj
              simp only [Nat.lt_succ_iff, Nat.le_iff_lt_or_eq] at hj
              rcases hj with hj | hj
              · exact List.mem_append_left _ (h.doneOk j hj)
              · subst hj; simp
            · rw [hlog]
              exact ordered_append_done _ s.idx .ok
                (ordered_append_res log s.idx h.ordered
                  (fun k hk => h.doneOk k (by omega)))
            · intro j o hj hne
              rcases List.mem_append.mp hj with hj | hj
              · exact absurd (h.stuck j o hj hne).1 hterm
              · simp at hj
                exact absurd hj.2 hne
        | fault =>
          have hstep : Sequence.step cs s =
              ({ s with st := .faulted }, [.res s.idx, .done s.idx .fault]) := by
            unfold Sequence.step; simp [hterm, hc, hrem, ho]
          rw [hstep]
          have hlog : log ++ [SeqEv.res s.idx, SeqEv.done s.idx .fault] =
              (log ++ [SeqEv.res s.idx]) ++ [SeqEv.done s.idx .fault] := by
            simp
          refine ⟨?_, ?_, ?_, ?_⟩ <;> dsimp only
          · intro j hj
            rcases List.mem_append.mp hj with hj | hj
            · exact h.resLe j hj
            · simp at hj
              omega
          · intro j hj
            exact List.mem_append_left _ (h.doneOk j hj)
          · rw [hlog]
            exact ordered_append_done _ s.idx .fault
              (ordered_append_res log s.idx h.ordered
                (fun k hk => h.doneOk k (by omega)))
          · intro j o hj hne
            rcases List.mem_append.mp hj with hj | hj
            · exact absurd (h.stuck j o hj hne).1 hterm
            · simp at hj
              exact ⟨rfl, hj.1.symm⟩
        | cancel =>
          have hstep : Sequence.step cs s =
              ({ s with st := .cancelled }, [.res s.idx, .done s.idx .cancel]) := by
            unfold Sequence.step; simp [hterm, hc, hrem, ho]
          rw [hstep]
          have hlog : log ++ [SeqEv.res s.idx, SeqEv.done s.idx .cancel] =
              (log ++ [SeqEv.res s.idx]) ++ [SeqEv.done s.idx .cancel] := by
            simp
          refine ⟨?_, ?_, ?_, ?_⟩ <;> dsimp only
          · intro j hj
            rcases List.mem_append.mp hj with hj | hj
            · exact h.resLe j hj
            · simp at hj
              omega
          · intro j hj
            exact List.mem_append_left _ (h.doneOk j hj)
          · rw [hlog]
            exact ordered_append_done _ s.idx .cancel
              (ordered_append_res log s.idx h.ordered
                (fun k hk => h.doneOk k (by omega)))
          · intro j o hj hne
            rcases List.mem_append.mp hj with hj | hj
            · exact absurd (h.stuck j o hj hne).1 hterm
            · simp at hj
              exact ⟨rfl, hj.1.symm⟩

theorem SeqInv.run (cs : List SChild) (n : Nat) :
    SeqInv (Sequence.run cs n).1 (Sequence.run cs n).2 := by
  induction n with
  | zero => exact SeqInv.init cs
  | succ n ih =>
    have := SeqInv.step_pres cs (Sequence.run cs n).1 (Sequence.run cs n).2 ih
    simpa [Sequence.run] using this

/-! ## Barrier

Modelled from the spec: a Barrier resumes every non-terminal child each
step; it completes only when all children have completed; when one or
more children fault it keeps resuming the remaining non-terminal
children and becomes `Faulted` only once every child is terminal,
carrying the first fault by child registration order. Its own state is
a pure function of its children's states plus the policy. -/

/-- Modelled from the spec: the observable state of one child of a
Barrier or Trigger — still running with `rem` suspension points left
before its scripted terminal `Outcome`, or finished with that outcome. -/
inductive BChildSt
  | running (rem : Nat) (o : Outcome)
  | fin (o : Outcome)
deriving DecidableEq, Repr

/-- Whether a child has reached a terminal state. -/
def BChildSt.isFin : BChildSt → Bool
  | .fin _ => true
  | _ => false

/-- One resume of a child: a running child with no suspension points
left reaches its terminal outcome; a finished child is left alone. -/
def bstep1 : BChildSt → BChildSt
  | .running 0 o => .fin o
  | .running (n + 1) o => .running n o
  | .fin o => .fin o

/-- The initial child state for a scripted child. -/
def BChildSt.init (c : SChild) : BChildSt := .running c.dur c.outcome

/-- The child state a scripted child is in after `m` resumes. -/
def iterCh (m : Nat) (c : SChild) : BChildSt :=
  if m ≤ c.dur then .running (c.dur - m) c.outcome else .fin c.outcome

theorem bstep1_iterCh (m : Nat) (c : SChild) :
    bstep1 (iterCh m c) = iterCh (m + 1) c := by
  unfold iterCh
  rcases Nat.lt_trichotomy m c.dur with h | h | h
  · rw [if_pos (by omega), if_pos (by omega)]
    have : c.dur - m = (c.dur - (m + 1)) + 1 := by omega
    rw [this]; rfl
  · subst h
    rw [if_pos (by omega), if_neg (by omega)]
    simp [bstep1]
  · rw [if_neg (by omega), if_neg (by omega)]; rfl

/-- The per-step resume/termination events of a child list, children
numbered from `i`. -/
def barEventsFrom (i : Nat) : List BChildSt → List SeqEv
  | [] => []
  | .fin _ :: t => barEventsFrom (i + 1) t
  | .running 0 o :: t => .res i :: .done i o :: barEventsFrom (i + 1) t
  | .running (_ + 1) _ :: t => .res i :: barEventsFrom (i + 1) t

/-- Index of the first child finished with a fault, children numbered
from `i`. -/
def firstFaultFrom (i : Nat) : List BChildSt → Option Nat
  | [] => none
  | .fin .fault :: _ => some i
  | _ :: t => firstFaultFrom (i + 1) t

/-- Index of the first scripted child whose outcome is a fault,
children numbered from `i`. -/
def scriptFirstFaultFrom (i : Nat) : List SChild → Option Nat
  | [] => none
  | c :: t =>
    if c.outcome = .fault then some i else scriptFirstFaultFrom (i + 1) t

/-- Modelled from the spec: one Kernel step of a Barrier resumes every
non-terminal child. -/
def Barrier.stepChildren (ch : List BChildSt) : List BChildSt :=
  ch.map bstep1

/-- The events a Barrier step emits from child list `ch`. -/
def Barrier.stepEvents (ch : List BChildSt) : List SeqEv :=
  barEventsFrom 0 ch

/-- Run a Barrier over scripted children for `n` Kernel steps,
accumulating the event log. -/
def Barrier.run (cs : List SChild) : Nat → List BChildSt × List SeqEv
  | 0 => (cs.map BChildSt.init, [])
  | n + 1 =>
    let p := Barrier.run cs n
    (Barrier.stepChildren p.1, p.2 ++ Barrier.stepEvents p.1)

/-- Modelled from the spec: the Barrier's own state as a pure function
of its children's states — running until every child is terminal; once
all are terminal, `Faulted` when any child faulted, `Completed` when
all completed, `Cancelled` otherwise. -/
def Barrier.state (ch : List BChildSt) : TaskState :=
  if ch.all BChildSt.isFin then
    match firstFaultFrom 0 ch with
    | some _ => .faulted
    | none =>
      if ch.all (fun b => decide (b = .fin .ok)) then .completed
      else .cancelled
  else .running

/-- Modelled from the spec: the fault the Barrier carries — the first
fault by registration order, published only once every child is
terminal. -/
def Barrier.faultOf (ch : List BChildSt) : Option Nat :=
  if ch.all BChildSt.isFin then firstFaultFrom 0 ch else none

theorem Barrier.run_children (cs : List SChild) (n : Nat) :
    (Barrier.run cs n).1 = cs.map (iterCh n) := by
  induction n with
  | zero =>
    simp only [Barrier.run]
    apply List.map_congr_left
    intro c _
    simp [BChildSt.init, iterCh, Nat.sub_zero]
  | succ n ih =>
    simp only [Barrier.run, Barrier.stepChildren, ih, List.map_map]
    apply List.map_congr_left
    intro c _
    exact bstep1_iterCh n c

theorem run_children_fin (cs : List SChild) (n : Nat)
    (hn : ∀ c ∈ cs, c.dur < n) :
    (Barrier.run cs n).1 = cs.map (fun c => BChildSt.fin c.outcome) := by
  rw [Barrier.run_children]
  apply List.map_congr_left
  intro c hc
  have := hn c hc
  simp [iterCh]; omega

theorem firstFaultFrom_map_fin (cs : List SChild) (i : Nat) :
    firstFaultFrom i (cs.map (fun c => BChildSt.fin c.outcome)) =
      scriptFirstFaultFrom i cs := by
  induction cs generalizing i with
  | nil => rfl
  | cons c t ih =>
    cases ho : c.outcome with
    | ok => simp [firstFaultFrom, scriptFirstFaultFrom, ho, ih]
    | fault => simp [firstFaultFrom, scriptFirstFaultFrom, ho]
    | cancel => simp [firstFaultFrom, scriptFirstFaultFrom, ho, ih]

theorem scriptFirstFaultFrom_eq_none (cs : List SChild) (i : Nat) :
    scriptFirstFaultFrom i cs = none ↔ ∀ c ∈ cs, c.outcome ≠ .fault := by
  induction cs generalizing i with
  | nil => simp [scriptFirstFaultFrom]
  | cons c t ih =>
    by_cases ho : c.outcome = .fault
    · simp [scriptFirstFaultFrom, ho]
    · simp [scriptFirstFaultFrom, ho, ih]

theorem all_fin_map (cs : List SChild) :
    (cs.map (fun c => BChildSt.fin c.outcome)).all BChildSt.isFin = true := by
  simp [List.all_eq_true, BChildSt.isFin]

theorem all_ok_map (cs : List SChild) :
    (cs.map (fun c => BChildSt.fin c.outcome)).all
        (fun b => decide (b = .fin .ok)) = true ↔
      ∀ c ∈ cs, c.outcome = .ok := by
  simp [List.all_eq_true]

/-- On a fully-finished child list, the Barrier's state is `Completed`
iff every child completed. -/
theorem Barrier.state_fin_completed (cs : List SChild) :
    Barrier.state (cs.map (fun c => BChildSt.fin c.outcome)) = .completed ↔
      ∀ c ∈ cs, c.outcome = .ok := by
  unfold Barrier.state
  rw [if_pos (all_fin_map cs), firstFaultFrom_map_fin]
  constructor
  · intro h
    cases hf : scriptFirstFaultFrom 0 cs with
    | some j => rw [hf] at h; exact absurd h (by simp)
    | none =>
      rw [hf] at h
      by_cases hall : (cs.map (fun c => BChildSt.fin c.outcome)).all
          (fun b => decide (b = .fin .ok)) = true
      · exact (all_ok_map cs).mp hall
      · rw [if_neg hall] at h; exact absurd h (by simp)
  · intro h
    have hf : scriptFirstFaultFrom 0 cs = none :=
      (scriptFirstFaultFrom_eq_none cs 0).mpr
        (fun c hc => by rw [h c hc]; simp)
    rw [hf, if_pos ((all_ok_map cs).mpr h)]

/-- On a fully-finished child list with a faulted child, the Barrier's
state is `Faulted` and it carries the first fault by registration
order. -/
theorem Barrier.state_fin_faulted (cs : List SChild)
    (hf : ∃ c ∈ cs, c.outcome = .fault) :
    Barrier.state (cs.map (fun c => BChildSt.fin c.outcome)) = .faulted ∧
      Barrier.faultOf (cs.map (fun c => BChildSt.fin c.outcome)) =
        scriptFirstFaultFrom 0 cs := by
  have hne : scriptFirstFaultFrom 0 cs ≠ none := by
    rw [Ne, scriptFirstFaultFrom_eq_none]
    push_neg
    rcases hf with ⟨c, hc, ho⟩
    exact ⟨c, hc, ho⟩
  unfold Barrier.state Barrier.faultOf
  rw [if_pos (all_fin_map cs), if_pos (all_fin_map cs), firstFaultFrom_map_fin]
  cases hsf : scriptFirstFaultFrom 0 cs with
  | none => exact absurd hsf hne
  | some j => exact ⟨rfl, rfl⟩

/-- If the Barrier's state is terminal, every child is terminal. -/
theorem Barrier.state_terminal_all_fin (ch : List BChildSt)
    (h : (Barrier.state ch).isTerminal = true) :
    ch.all BChildSt.isFin = true := by
  by_cases hall : ch.all BChildSt.isFin = true
  · exact hall
  · unfold Barrier.state at h
    rw [if_neg hall] at h
    exact absurd h (by simp [TaskState.isTerminal])

/-- Every still-running child is resumed by a Barrier step: its resume
event is in the step's event list. -/
theorem barEventsFrom_res (ch : List BChildSt) (i j : Nat) (rem : Nat)
    (o : Outcome) (hj : ch[j]? = some (.running rem o)) :
    SeqEv.res (i + j) ∈ barEventsFrom i ch := by
  induction ch generalizing i j with
  | nil => simp at hj
  | cons b t ih =>
    cases j with
    | zero =>
      simp at hj
      subst hj
      cases rem with
      | zero => simp [barEventsFrom]
      | succ m => simp [barEventsFrom]
    | succ j' =>
      simp only [List.getElem?_cons_succ] at hj
      have := ih (i + 1) j' hj
      have harith : i + 1 + j' = i + (j' + 1) := by omega
      rw [harith] at this
      cases b with
      | fin o' => simpa [barEventsFrom] using this
      | running rem' o' =>
        cases rem' with
        | zero => simp [barEventsFrom]; exact this
        | succ m => simp [barEventsFrom]; exact this

/-! ## Trigger

Modelled from the spec: a Trigger resumes every non-terminal child each
step; the first child to reach a terminal state determines the
Trigger's own terminal state and result/fault — ties within one step
are broken by registration order — and at that moment a cancellation
request is propagated to every other still-running child. -/

/-- An observable event of a Trigger's execution: child `j` resumed,
child `j` terminated with outcome `o`, or child `j` received a
cancellation request. -/
inductive TrigEv
  | res (j : Nat)
  | done (j : Nat) (o : Outcome)
  | cancelReq (j : Nat)
deriving DecidableEq, Repr

/-- Indices (numbered from `i`) of the children that reach a terminal
state on this step's resume, with their outcomes, in registration
order. -/
def newlyFrom (i : Nat) : List BChildSt → List (Nat × Outcome)
  | [] => []
  | .running 0 o :: t => (i, o) :: newlyFrom (i + 1) t
  | _ :: t => newlyFrom (i + 1) t

/-- Indices (numbered from `i`) of the children still running. -/
def runningIdxFrom (i : Nat) : List BChildSt → List Nat
  | [] => []
  | .running _ _ :: t => i :: runningIdxFrom (i + 1) t
  | _ :: t => runningIdxFrom (i + 1) t

/-- Modelled from the spec: the running state of a Trigger — its
children's states, its own `TaskState`, and the winning child (index
and outcome) once decided. -/
structure TrigSt where
  ch : List BChildSt
  st : TaskState
  winner : Option (Nat × Outcome)
deriving DecidableEq, Repr

/-- A freshly constructed Trigger over children `cs`. -/
def Trigger.init (cs : List SChild) : TrigSt :=
  { ch := cs.map BChildSt.init, st := .created, winner := none }

/-- Modelled from the spec: one Kernel step of a Trigger — resume every
non-terminal child in registration order; if any child reaches a
terminal state this step, the earliest such child by registration order
becomes the winner, the Trigger takes that child's terminal state, and
a cancellation request is sent to every other still-running child at
that moment. -/
def Trigger.step (t : TrigSt) : TrigSt × List TrigEv :=
  if t.st.isTerminal then (t, [])
  else
    let resEv := (runningIdxFrom 0 t.ch).map TrigEv.res
    let ch' := t.ch.map bstep1
    let newly := newlyFrom 0 t.ch
    let doneEv := newly.map (fun p => TrigEv.done p.1 p.2)
    match newly with
    | [] => ({ t with ch := ch' }, resEv ++ doneEv)
    | (w, o) :: _ =>
        ({ ch := ch', st := o.toState, winner := some (w, o) },
         resEv ++ doneEv ++ (runningIdxFrom 0 ch').map TrigEv.cancelReq)

/-- Run a Trigger over scripted children for `n` Kernel steps,
accumulating the event log. -/
def Trigger.run (cs : List SChild) : Nat → TrigSt × List TrigEv
  | 0 => (Trigger.init cs, [])
  | n + 1 =>
    let p := Trigger.run cs n
    let q := Trigger.step p.1
    (q.1, p.2 ++ q.2)

theorem newlyFrom_nil_of_ne (cs : List SChild) (m i : Nat)
    (h : ∀ c ∈ cs, c.dur ≠ m) :
    newlyFrom i (cs.map (iterCh m)) = [] := by
  induction cs generalizing i with
  | nil => rfl
  | cons c t ih =>
    have hc := h c (by simp)
    have ht : ∀ c ∈ t, c.dur ≠ m := fun c hc => h c (by simp [hc])
    simp only [List.map_cons]
    unfold iterCh
    by_cases hle : m ≤ c.dur
    · rw [if_pos hle]
      have : c.dur - m ≠ 0 := by omega
      cases hd : c.dur - m with
      | zero => exact absurd hd this
      | succ k => simpa [newlyFrom] using ih (i + 1) ht
    · rw [if_neg hle]
      simpa [newlyFrom] using ih (i + 1) ht

theorem newlyFrom_head (cs : List SChild) (d i w : Nat) (c : SChild)
    (hmin : ∀ c ∈ cs, d ≤ c.dur)
    (hw : cs.findIdx (fun c => c.dur == d) = w)
    (hc : cs[w]? = some c) :
    (newlyFrom i (cs.map (iterCh d))).head? = some (i + w, c.outcome) := by
  induction cs generalizing i w with
  | nil => simp at hc
  | cons c0 t ih =>
    by_cases h0 : c0.dur = d
    · have hw0 : w = 0 := by
        rw [List.findIdx_cons] at hw
        simpa [h0] using hw.symm
      subst hw0
      simp at hc
      subst hc
      simp only [List.map_cons]
      unfold iterCh
      rw [if_pos (by omega), h0, Nat.sub_self]
      simp [newlyFrom]
    · have hd0 : d < c0.dur :=
        lt_of_le_of_ne (hmin c0 (by simp)) (fun h => h0 h.symm)
      have hbeq : (c0.dur == d) = false := by simp [h0]
      have hw' : t.findIdx (fun c => c.dur == d) + 1 = w := by
        rw [List.findIdx_cons, hbeq] at hw
        simpa using hw
      cases w with
      | zero => omega
      | succ w' =>
        have hwt : t.findIdx (fun c => c.dur == d) = w' := by omega
        have hct : t[w']? = some c := by simpa using hc
        have hmt : ∀ c ∈ t, d ≤ c.dur := fun c hc => hmin c (by simp [hc])
        have := ih (i + 1) w' hmt hwt hct
        have hiter : iterCh d c0 =
            BChildSt.running (c0.dur - d) c0.outcome := by
          unfold iterCh; rw [if_pos (by omega)]
        obtain ⟨k, hk⟩ : ∃ k, c0.dur - d = k + 1 := ⟨c0.dur - d - 1, by omega⟩
        rw [List.map_cons, hiter, hk]
        simp only [newlyFrom]
        rw [this]
        simp only [Option.some.injEq, Prod.mk.injEq]
        exact ⟨by omega, trivial⟩

theorem runningIdxFrom_mem (ch : List BChildSt) (i j rem : Nat)
    (o : Outcome) (hj : ch[j]? = some (.running rem o)) :
    (i + j) ∈ runningIdxFrom i ch := by
  induction ch generalizing i j with
  | nil => simp at hj
  | cons b t ih =>
    cases j with
    | zero =>
      simp at hj
      subst hj
      simp [runningIdxFrom]
    | succ j' =>
      simp only [List.getElem?_cons_succ] at hj
      have := ih (i + 1) j' hj
      have harith : i + 1 + j' = i + (j' + 1) := by omega
      rw [harith] at this
      cases b with
      | fin o' => simpa [runningIdxFrom] using this
      | running rem' o' => exact List.mem_cons_of_mem _ this


theorem Trigger.step_eq_nowin (t : TrigSt) (h : t.st.isTerminal = false)
    (hn : newlyFrom 0 t.ch = []) :
    Trigger.step t = ({ t with ch := t.ch.map bstep1 },
      (runningIdxFrom 0 t.ch).map TrigEv.res) := by
  unfold Trigger.step
  rw [if_neg (by simp [h]), hn]
  simp

theorem Trigger.step_eq_win (t : TrigSt) (h : t.st.isTerminal = false)
    (w : Nat) (o : Outcome) (rest : List (Nat × Outcome))
    (hn : newlyFrom 0 t.ch = (w, o) :: rest) :
    Trigger.step t =
      (⟨t.ch.map bstep1, o.toState, some (w, o)⟩,
       (runningIdxFrom 0 t.ch).map TrigEv.res ++
         ((w, o) :: rest).map (fun p => TrigEv.done p.1 p.2) ++
         (runningIdxFrom 0 (t.ch.map bstep1)).map TrigEv.cancelReq) := by
  unfold Trigger.step
  rw [if_neg (by simp [h]), hn]

theorem map_bstep1_iterCh (cs : List SChild) (m : Nat) :
    (cs.map (iterCh m)).map bstep1 = cs.map (iterCh (m + 1)) := by
  rw [List.map_map]
  apply List.map_congr_left
  intro c _
  exact bstep1_iterCh m c

theorem Trigger.run_prefix (cs : List SChild) (d : Nat)
    (hmin : ∀ c ∈ cs, d ≤ c.dur) (m : Nat) (hm : m ≤ d) :
    (Trigger.run cs m).1 = ⟨cs.map (iterCh m), .created, none⟩ := by
  induction m with
  | zero =>
    simp only [Trigger.run, Trigger.init]
    congr 1
    apply List.map_congr_left
    intro c _
    simp [BChildSt.init, iterCh]
  | succ m ih =>
    have hst := ih (by omega)
    simp only [Trigger.run]
    rw [hst]
    have hnone : newlyFrom 0 (cs.map (iterCh m)) = [] := by
      apply newlyFrom_nil_of_ne
      intro c hc
      have := hmin c hc
      omega
    rw [Trigger.step_eq_nowin _ (by rfl) hnone]
    simp only
    congr 1
    exact map_bstep1_iterCh cs m

theorem Trigger.step_win (cs : List SChild) (d w : Nat) (c : SChild)
    (hmin : ∀ cc ∈ cs, d ≤ cc.dur)
    (hw : cs.findIdx (fun cc => cc.dur == d) = w)
    (hc : cs[w]? = some c) :
    (Trigger.run cs (d + 1)).1 =
      ⟨cs.map (iterCh (d + 1)), c.outcome.toState, some (w, c.outcome)⟩ ∧
    ∀ j cj, cs[j]? = some cj → d < cj.dur →
      TrigEv.cancelReq j ∈ (Trigger.run cs (d + 1)).2 := by
  have hpre := Trigger.run_prefix cs d hmin d (le_refl d)
  have hhead : (newlyFrom 0 (cs.map (iterCh d))).head? =
      some (w, c.outcome) := by
    have := newlyFrom_head cs d 0 w c hmin hw hc
    simpa using this
  obtain ⟨rest, hnewly⟩ :
      ∃ rest, newlyFrom 0 (cs.map (iterCh d)) = (w, c.outcome) :: rest := by
    cases hn : newlyFrom 0 (cs.map (iterCh d)) with
    | nil => rw [hn] at hhead; simp at hhead
    | cons p rest =>
      rw [hn] at hhead
      simp at hhead
      exact ⟨rest, by rw [hhead]⟩
  have hstep := Trigger.step_eq_win ⟨cs.map (iterCh d), .created, none⟩
    (by rfl) w c.outcome rest hnewly
  rw [map_bstep1_iterCh cs d] at hstep
  constructor
  · show (Trigger.run cs (d + 1)).1 = _
    simp only [Trigger.run]
    rw [hpre, hstep]
  · intro j cj hj hdur
    simp only [Trigger.run]
    rw [hpre, hstep]
    have hjrun : (cs.map (iterCh (d + 1)))[j]? =
        some (.running (cj.dur - (d + 1)) cj.outcome) := by
      rw [List.getElem?_map, hj]
      have hit : iterCh (d + 1) cj =
          BChildSt.running (cj.dur - (d + 1)) cj.outcome := by
        unfold iterCh; rw [if_pos (by omega)]
      simp [hit]
    have hmem := runningIdxFrom_mem (cs.map (iterCh (d + 1))) 0 j _ _ hjrun
    simp only [Nat.zero_add] at hmem
    apply List.mem_append_right
    apply List.mem_append_right
    exact List.mem_map_of_mem _ hmem

theorem Trigger.trig_step_frozen (t : TrigSt) (h : t.st.isTerminal = true) :
    Trigger.step t = (t, []) := by
  unfold Trigger.step
  rw [if_pos h]

theorem Trigger.run_frozen (cs : List SChild) (m : Nat)
    (h : (Trigger.run cs m).1.st.isTerminal = true) :
    ∀ n, m ≤ n → Trigger.run cs n = Trigger.run cs m := by
  intro n hn
  induction n with
  | zero =>
    have : m = 0 := by omega
    rw [this]
  | succ n ih =>
    by_cases hmn : m = n + 1
    · rw [hmn]
    · have hle : m ≤ n := by omega
      have hrn := ih hle
      simp only [Trigger.run, hrn]
      rw [Trigger.trig_step_frozen _ h]
      simp


/-! ## Kernel

Modelled from the spec: `Step(deltaTime)` resumes every task currently
in the active set in the order they were added; tasks scheduled during
the step are deferred to the next step; tasks that reached a terminal
state are removed from the active set and their listeners are notified
synchronously before `Step` returns. -/

/-- Modelled from the spec: a description of a task to be scheduled —
its identity, scripted duration and scripted terminal outcome. -/
structure TaskDesc where
  tid : Nat
  dur : Nat
  outcome : Outcome
deriving DecidableEq, Repr

/-- Modelled from the spec: a top-level task in the Kernel's active
set. `spawns` are the tasks it schedules when next resumed (modelling
work that adds tasks during a step). -/
structure KTask where
  tid : Nat
  rem : Nat
  outcome : Outcome
  st : TaskState
  spawns : List TaskDesc
deriving DecidableEq, Repr

/-- The active-set task a freshly scheduled description becomes. -/
def TaskDesc.toTask (d : TaskDesc) : KTask :=
  { tid := d.tid, rem := d.dur, outcome := d.outcome, st := .created,
    spawns := [] }

/-- Modelled from the spec: resuming a top-level task advances it by
one logical unit and hands the Kernel the tasks it wants scheduled. -/
def KTask.resume (t : KTask) : KTask × List TaskDesc :=
  if t.st.isTerminal then (t, [])
  else
    match t.rem with
    | 0 => ({ t with st := t.outcome.toState, spawns := [] }, t.spawns)
    | n + 1 => ({ t with rem := n, st := .suspended, spawns := [] }, t.spawns)

/-- An observable event of one Kernel step: a task was resumed, or a
task's listeners were notified of its terminal state. -/
inductive KEv
  | resumed (tid : Nat)
  | notified (tid : Nat) (st : TaskState)
deriving DecidableEq, Repr

/-- Modelled from the spec: walk the active set in order; resume each
task, drop the ones that reached a terminal state (notifying their
listeners in place), and collect the tasks scheduled during the walk.
Returns (survivors, deferred schedules, events). -/
def Kernel.stepGo : List KTask → List KTask × List TaskDesc × List KEv
  | [] => ([], [], [])
  | t :: ts =>
    let r := t.resume
    let rest := Kernel.stepGo ts
    if r.1.st.isTerminal then
      (rest.1, r.2 ++ rest.2.1,
       .resumed t.tid :: .notified t.tid r.1.st :: rest.2.2)
    else
      (r.1 :: rest.1, r.2 ++ rest.2.1, .resumed t.tid :: rest.2.2)

/-- Modelled from the spec: the Kernel's active set of top-level
tasks, in the order they were added. -/
structure Kernel where
  active : List KTask
deriving DecidableEq, Repr

/-- Modelled from the spec: `Step` — resume every active task in
order; remove terminal tasks; append the tasks scheduled during the
step to the active set so they are first resumed on the next step. -/
def Kernel.step (k : Kernel) : Kernel × List KEv :=
  let r := Kernel.stepGo k.active
  (⟨r.1 ++ r.2.1.map TaskDesc.toTask⟩, r.2.2)

/-- The task ids of the resume events of a step, in order. -/
def resumedIds (evs : List KEv) : List Nat :=
  evs.filterMap (fun e => match e with
    | .resumed i => some i
    | _ => none)

theorem stepGo_resumedIds (ts : List KTask) :
    resumedIds (Kernel.stepGo ts).2.2 = ts.map KTask.tid := by
  induction ts with
  | nil => rfl
  | cons t ts ih =>
    unfold Kernel.stepGo
    by_cases ht : (t.resume).1.st.isTerminal = true
    · simp only [ht, if_pos]
      simp [resumedIds, List.filterMap_cons] at ih ⊢
      exact ih
    · simp only [ht]
      simp [resumedIds, List.filterMap_cons] at ih ⊢
      exact ih

theorem stepGo_notified (ts : List KTask) :
    ∀ t ∈ ts, (t.resume).1.st.isTerminal = true →
      KEv.notified t.tid (t.resume).1.st ∈ (Kernel.stepGo ts).2.2 := by
  induction ts with
  | nil => intro t ht; simp at ht
  | cons u ts ih =>
    intro t ht hterm
    rcases List.mem_cons.mp ht with ht | ht
    · subst ht
      unfold Kernel.stepGo
      rw [if_pos hterm]
      simp
    · unfold Kernel.stepGo
      by_cases hu : (u.resume).1.st.isTerminal = true
      · rw [if_pos hu]
        simp only [List.mem_cons]
        right; right
        exact ih t ht hterm
      · rw [if_neg hu]
        simp only [List.mem_cons]
        right
        exact ih t ht hterm

theorem stepGo_survivor_tids (ts : List KTask) :
    (Kernel.stepGo ts).1.map KTask.tid =
      (ts.filter (fun t => !(t.resume).1.st.isTerminal)).map KTask.tid := by
  induction ts with
  | nil => rfl
  | cons t ts ih =>
    unfold Kernel.stepGo
    by_cases ht : (t.resume).1.st.isTerminal = true
    · rw [if_pos ht]
      simp only [List.filter_cons, ht]
      simpa using ih
    · rw [if_neg ht]
      have hb : (!(t.resume).1.st.isTerminal) = true := by
        cases hbb : (t.resume).1.st.isTerminal
        · rfl
        · exact absurd hbb ht
      simp only [List.filter_cons, hb, if_pos]
      simp only [List.map_cons, ih]
      congr 1
      unfold KTask.resume
      by_cases hterm : t.st.isTerminal = true
      · rw [if_pos hterm]
      · rw [if_neg hterm]
        cases t.rem <;> rfl

theorem stepGo_spawn_not_resumed (ts : List KTask)
    (hnodup : (ts.map KTask.tid ++
      (Kernel.stepGo ts).2.1.map TaskDesc.tid).Nodup) :
    ∀ d ∈ (Kernel.stepGo ts).2.1, KEv.resumed d.tid ∉ (Kernel.stepGo ts).2.2 := by
  intro d hd hmem
  have hres : d.tid ∈ resumedIds (Kernel.stepGo ts).2.2 := by
    unfold resumedIds
    exact List.mem_filterMap.mpr ⟨_, hmem, rfl⟩
  rw [stepGo_resumedIds] at hres
  have hdt : d.tid ∈ (Kernel.stepGo ts).2.1.map TaskDesc.tid :=
    List.mem_map_of_mem _ hd
  rcases (List.nodup_append.mp hnodup) with ⟨_, _, hdisj⟩
  exact hdisj hres hdt


/-! ## Factory

Modelled from the spec: the Factory constructs tasks and combinators
with validated configuration and fails fast with a configuration error
rather than producing a malformed instance; an empty Trigger is a
configuration error, while empty Sequences and Barriers are legal and
complete immediately. -/

/-- Modelled from the spec: errors rejected at Factory construction
time. -/
inductive ConfigError
  | emptyTrigger
deriving DecidableEq, Repr

/-- Modelled from the spec: Factory entry point for a Sequence; any
child list is accepted (an empty Sequence completes on first resume). -/
def Factory.mkSequence (cs : List SChild) : Except ConfigError SeqSt :=
  .ok (Sequence.init cs)

/-- Modelled from the spec: Factory entry point for a Barrier; any
child list is accepted (an empty Barrier completes on first resume). -/
def Factory.mkBarrier (cs : List SChild) :
    Except ConfigError (List BChildSt) :=
  .ok (cs.map BChildSt.init)

/-- Modelled from the spec: Factory entry point for a Trigger; an
empty child list is rejected with a configuration error and no
instance is produced. -/
def Factory.mkTrigger (cs : List SChild) : Except ConfigError TrigSt :=
  if cs.isEmpty then .error .emptyTrigger else .ok (Trigger.init cs)

/-! ## Auxiliary stability lemmas for terminal states -/

theorem Sequence.seq_step_frozen (cs : List SChild) (s : SeqSt)
    (h : s.st.isTerminal = true) : Sequence.step cs s = (s, []) := by
  unfold Sequence.step
  rw [if_pos h]

theorem map_bstep1_of_all_fin (ch : List BChildSt)
    (h : ch.all BChildSt.isFin = true) : ch.map bstep1 = ch := by
  induction ch with
  | nil => rfl
  | cons b t ih =>
    simp only [List.all_cons, Bool.and_eq_true] at h
    cases b with
    | fin o => simp [bstep1, ih h.2]
    | running rem o => simp [BChildSt.isFin] at h

theorem Barrier.terminal_stepChildren (ch : List BChildSt)
    (h : (Barrier.state ch).isTerminal = true) :
    Barrier.stepChildren ch = ch :=
  map_bstep1_of_all_fin ch (Barrier.state_terminal_all_fin ch h)

/-! ## Deferred Value counting lemmas -/

theorem deliveredCount_append (l1 l2 : List Delivery) (wid : Nat) :
    deliveredCount (l1 ++ l2) wid =
      deliveredCount l1 wid + deliveredCount l2 wid := by
  simp [deliveredCount, List.filter_append]

theorem deliveredCount_map (ws : List Nat) (p : DVPayload) (wid : Nat) :
    deliveredCount (ws.map (fun w => ⟨w, p⟩)) wid =
      (ws.filter (fun w => w = wid)).length := by
  induction ws with
  | nil => rfl
  | cons w t ih =>
    by_cases hw : w = wid
    · simp [deliveredCount, List.filter_cons, hw] at ih ⊢
      exact ih
    · simp [deliveredCount, List.filter_cons, hw] at ih ⊢
      exact ih

theorem awaitCount_cons (op : DVOp) (ops : List DVOp) (wid : Nat) :
    awaitCount (op :: ops) wid =
      awaitCount ops wid + (if op = .awaitOp wid then 1 else 0) := by
  by_cases h : op = DVOp.awaitOp wid
  · simp [awaitCount, List.filter_cons, h]
  · simp [awaitCount, List.filter_cons, h]

theorem dv_run_count (ops : List DVOp) (s : DVState) (wid : Nat) :
    deliveredCount (DVState.run s ops).2 wid +
        (DVState.run s ops).1.pendingCount wid =
      awaitCount ops wid + s.pendingCount wid := by
  induction ops generalizing s with
  | nil => simp [DVState.run, deliveredCount, awaitCount]
  | cons op ops ih =>
    have key : ∀ s1 ds1, DVState.applyOp s op = (s1, ds1) →
        deliveredCount (DVState.run s (op :: ops)).2 wid +
            (DVState.run s (op :: ops)).1.pendingCount wid =
          deliveredCount ds1 wid +
            (awaitCount ops wid + s1.pendingCount wid) := by
      intro s1 ds1 happ
      simp only [DVState.run, happ]
      rw [deliveredCount_append]
      have := ih s1
      omega
    cases op with
    | awaitOp w =>
      cases s with
      | unresolved ws =>
        rw [key (.unresolved (ws ++ [w])) [] rfl]
        rw [awaitCount_cons]
        simp only [DVState.pendingCount, List.filter_append]
        by_cases hw : w = wid
        · simp [deliveredCount, hw]; omega
        · simp [deliveredCount, hw]
      | resolvedWith v =>
        rw [key (.resolvedWith v) [⟨w, .val v⟩] rfl]
        rw [awaitCount_cons]
        simp only [DVState.pendingCount]
        by_cases hw : w = wid
        · simp [deliveredCount, List.filter_cons, hw]; omega
        · simp [deliveredCount, List.filter_cons, hw]
      | failedWith f =>
        rw [key (.failedWith f) [⟨w, .flt f⟩] rfl]
        rw [awaitCount_cons]
        simp only [DVState.pendingCount]
        by_cases hw : w = wid
        · simp [deliveredCount, List.filter_cons, hw]; omega
        · simp [deliveredCount, List.filter_cons, hw]
    | resolveOp v =>
      cases s with
      | unresolved ws =>
        rw [key (.resolvedWith v) (ws.map (fun w => ⟨w, .val v⟩)) rfl]
        rw [awaitCount_cons, deliveredCount_map]
        simp [DVState.pendingCount]
        omega
      | resolvedWith v0 =>
        rw [key (.resolvedWith v0) [] rfl]
        rw [awaitCount_cons]
        simp [DVState.pendingCount, deliveredCount]
      | failedWith f0 =>
        rw [key (.failedWith f0) [] rfl]
        rw [awaitCount_cons]
        simp [DVState.pendingCount, deliveredCount]
    | failOp f =>
      cases s with
      | unresolved ws =>
        rw [key (.failedWith f) (ws.map (fun w => ⟨w, .flt f⟩)) rfl]
        rw [awaitCount_cons, deliveredCount_map]
        simp [DVState.pendingCount]
        omega
      | resolvedWith v0 =>
        rw [key (.resolvedWith v0) [] rfl]
        rw [awaitCount_cons]
        simp [DVState.pendingCount, deliveredCount]
      | failedWith f0 =>
        rw [key (.failedWith f0) [] rfl]
        rw [awaitCount_cons]
        simp [DVState.pendingCount, deliveredCount]


end Flow

namespace Flow

/-! ## Claim theorems -/

/-- C1: For every `Kernel.Step` invocation, tasks in the active set are
resumed in the order they were added; any task added to the active set
during that Step is not resumed until the next Step (it is appended to
the active set, ready for the next Step); and every task that reaches
a terminal state during the Step is removed from the active set and
has its listeners notified synchronously before that Step call
returns. Task ids are assumed pairwise distinct. -/
theorem kernel_step_contract (k : Kernel)
    (hnodup : (k.active.map KTask.tid ++
      (Kernel.stepGo k.active).2.1.map TaskDesc.tid).Nodup) :
    resumedIds (Kernel.step k).2 = k.active.map KTask.tid
    ∧ (∀ d ∈ (Kernel.stepGo k.active).2.1,
        KEv.resumed d.tid ∉ (Kernel.step k).2
        ∧ TaskDesc.toTask d ∈ (Kernel.step k).1.active)
    ∧ (∀ t ∈ k.active, (t.resume).1.st.isTerminal = true →
        KEv.notified t.tid (t.resume).1.st ∈ (Kernel.step k).2
        ∧ t.tid ∉ (Kernel.step k).1.active.map KTask.tid) := by
  refine ⟨stepGo_resumedIds k.active, ?_, ?_⟩
  · intro d hd
    refine ⟨stepGo_spawn_not_resumed k.active hnodup d hd, ?_⟩
    show TaskDesc.toTask d ∈
      (Kernel.stepGo k.active).1 ++
        (Kernel.stepGo k.active).2.1.map TaskDesc.toTask
    exact List.mem_append_right _ (List.mem_map_of_mem _ hd)
  · intro t ht hterm
    refine ⟨stepGo_notified k.active t ht hterm, ?_⟩
    intro hmem
    show False
    have hactive : (Kernel.step k).1.active =
        (Kernel.stepGo k.active).1 ++
          (Kernel.stepGo k.active).2.1.map TaskDesc.toTask := rfl
    rw [hactive, List.map_append] at hmem
    rcases List.mem_append.mp hmem with hmem | hmem
    · rw [stepGo_survivor_tids] at hmem
      obtain ⟨u, hu, huid⟩ := List.mem_map.mp hmem
      obtain ⟨humem, hupred⟩ := List.mem_filter.mp hu
      have hnodup1 : (k.active.map KTask.tid).Nodup :=
        (List.nodup_append.mp hnodup).1
      have hut : u = t :=
        List.inj_on_of_nodup_map hnodup1 humem ht huid
      rw [hut] at hupred
      rw [hterm] at hupred
      simp at hupred
    · rw [List.map_map] at hmem
      have hmem2 : t.tid ∈ (Kernel.stepGo k.active).2.1.map TaskDesc.tid := by
        have : (KTask.tid ∘ TaskDesc.toTask) = TaskDesc.tid := rfl
        rw [this] at hmem
        exact hmem
      have hdisj := List.disjoint_of_nodup_append hnodup
      exact hdisj (List.mem_map_of_mem _ ht) hmem2

theorem kernel_step_contract_witness :
    resumedIds (Kernel.step ⟨[⟨1, 0, .ok, .created, [⟨3, 2, .ok⟩]⟩,
        ⟨2, 5, .ok, .created, []⟩]⟩).2 = [1, 2] ∧
    KEv.resumed 3 ∉ (Kernel.step ⟨[⟨1, 0, .ok, .created, [⟨3, 2, .ok⟩]⟩,
        ⟨2, 5, .ok, .created, []⟩]⟩).2 ∧
    1 ∉ (Kernel.step ⟨[⟨1, 0, .ok, .created, [⟨3, 2, .ok⟩]⟩,
        ⟨2, 5, .ok, .created, []⟩]⟩).1.active.map KTask.tid := by
  have h := kernel_step_contract ⟨[⟨1, 0, .ok, .created, [⟨3, 2, .ok⟩]⟩,
      ⟨2, 5, .ok, .created, []⟩]⟩ (by decide)
  refine ⟨h.1, ?_, ?_⟩
  · exact (h.2.1 ⟨3, 2, .ok⟩ (by decide)).1
  · exact (h.2.2 ⟨1, 0, .ok, .created, [⟨3, 2, .ok⟩]⟩ (by decide) (by decide)).2

/-- C2: For every Task and every sequence of operations applied to it,
once the Task's state is terminal (`Completed`, `Faulted`,
`Cancelled`) its state never changes again; each combinator is likewise
left unchanged by a step once terminal. -/
theorem task_terminal_monotone :
    (∀ (t : LeafTask) (ops : List TaskOp), t.st.isTerminal = true →
      (t.applyOps ops).st = t.st)
    ∧ (∀ (cs : List SChild) (s : SeqSt), s.st.isTerminal = true →
      Sequence.step cs s = (s, []))
    ∧ (∀ t : TrigSt, t.st.isTerminal = true → Trigger.step t = (t, []))
    ∧ (∀ ch : List BChildSt, (Barrier.state ch).isTerminal = true →
      Barrier.state (Barrier.stepChildren ch) = Barrier.state ch) := by
  refine ⟨?_, ?_, ?_, ?_⟩
  · intro t ops
    induction ops generalizing t with
    | nil => intro _; rfl
    | cons op ops ih =>
      intro h
      show ((t.applyOp op).applyOps ops).st = t.st
      rw [ih _ (LeafTask.applyOp_terminal_stable t op h),
        LeafTask.applyOp_of_terminal t op h]
  · exact Sequence.seq_step_frozen
  · exact Trigger.trig_step_frozen
  · intro ch h
    rw [Barrier.terminal_stepChildren ch h]

theorem task_terminal_monotone_witness :
    ((⟨4, .ok, false, .faulted⟩ : LeafTask).applyOps
        [.resume, .cancel, .resume]).st = .faulted ∧
    Trigger.step ⟨[.running 2 .ok], .cancelled, none⟩ =
      (⟨[.running 2 .ok], .cancelled, none⟩, []) := by
  have h := task_terminal_monotone
  exact ⟨h.1 ⟨4, .ok, false, .faulted⟩ [.resume, .cancel, .resume] (by decide),
    h.2.2.1 ⟨[.running 2 .ok], .cancelled, none⟩ (by decide)⟩

/-- C3: For every Sequence and every execution, the (k+1)-th child's
first resume happens strictly after the k-th child reaches
`Completed` (no resume of child k+1 occurs before child k's completion
event), and if any child faults, no later child is ever resumed. -/
theorem sequence_order (cs : List SChild) (n k : Nat) :
    afterFirst (.done k .ok) (.res (k + 1)) (Sequence.run cs n).2 = true
    ∧ ∀ j i, SeqEv.done j .fault ∈ (Sequence.run cs n).2 → j < i →
        SeqEv.res i ∉ (Sequence.run cs n).2 := by
  have h := SeqInv.run cs n
  refine ⟨h.ordered k, ?_⟩
  intro j i hj hji hri
  have hstuck := h.stuck j .fault hj (by simp)
  have hle := h.resLe i hri
  omega

theorem sequence_order_witness :
    SeqEv.res 2 ∉ (Sequence.run [⟨0, .ok⟩, ⟨0, .fault⟩, ⟨1, .ok⟩] 5).2 :=
  (sequence_order [⟨0, .ok⟩, ⟨0, .fault⟩, ⟨1, .ok⟩] 5 0).2 1 2
    (by decide) (by decide)

/-- C4: For every Barrier, the Barrier reaches `Completed` iff every
child reaches `Completed`; if one or more children fault, the Barrier
keeps resuming the remaining non-terminal children each step, is
`Faulted` only once every child is terminal, and carries the first
fault by child registration order. -/
theorem barrier_join (cs : List SChild) (n : Nat)
    (hn : ∀ c ∈ cs, c.dur < n) :
    (Barrier.state (Barrier.run cs n).1 = .completed ↔
      ∀ c ∈ cs, c.outcome = .ok)
    ∧ ((∃ c ∈ cs, c.outcome = .fault) →
      Barrier.state (Barrier.run cs n).1 = .faulted ∧
      (Barrier.run cs n).1.all BChildSt.isFin = true ∧
      Barrier.faultOf (Barrier.run cs n).1 = scriptFirstFaultFrom 0 cs)
    ∧ (∀ m, (Barrier.state (Barrier.run cs m).1).isTerminal = true →
      (Barrier.run cs m).1.all BChildSt.isFin = true)
    ∧ (∀ m j rem o, (Barrier.run cs m).1[j]? = some (.running rem o) →
      SeqEv.res j ∈ Barrier.stepEvents (Barrier.run cs m).1) := by
  have hfin := run_children_fin cs n hn
  refine ⟨?_, ?_, ?_, ?_⟩
  · rw [hfin]; exact Barrier.state_fin_completed cs
  · intro hf
    rw [hfin]
    obtain ⟨h1, h2⟩ := Barrier.state_fin_faulted cs hf
    exact ⟨h1, all_fin_map cs, h2⟩
  · intro m hm
    exact Barrier.state_terminal_all_fin _ hm
  · intro m j rem o hj
    have := barEventsFrom_res _ 0 j rem o hj
    simpa [Barrier.stepEvents] using this

theorem barrier_join_witness :
    Barrier.state (Barrier.run [⟨0, .ok⟩, ⟨1, .fault⟩] 3).1 = .faulted ∧
    Barrier.faultOf (Barrier.run [⟨0, .ok⟩, ⟨1, .fault⟩] 3).1 = some 1 := by
  have h := barrier_join [⟨0, .ok⟩, ⟨1, .fault⟩] 3 (by decide)
  have h2 := h.2.1 ⟨⟨1, .fault⟩, by decide, rfl⟩
  refine ⟨h2.1, ?_⟩
  rw [h2.2.2]
  rfl

/-- C5: For every Trigger, if any child terminates, the Trigger's
terminal state and result/fault equal those of the earliest child by
registration order among the children that terminate in the same step
as the winner (`d` is the first step index at which some child
terminates, `w` the earliest such child), and every other
still-running child receives a cancellation request at that moment. -/
theorem trigger_race (cs : List SChild) (d w n : Nat) (c : SChild)
    (hmin : ∀ cc ∈ cs, d ≤ cc.dur)
    (hw : cs.findIdx (fun cc => cc.dur == d) = w)
    (hc : cs[w]? = some c)
    (hn : d + 1 ≤ n) :
    (Trigger.run cs n).1.winner = some (w, c.outcome)
    ∧ (Trigger.run cs n).1.st = c.outcome.toState
    ∧ ∀ j cj, cs[j]? = some cj → d < cj.dur →
        TrigEv.cancelReq j ∈ (Trigger.run cs n).2 := by
  obtain ⟨hst, hcancel⟩ := Trigger.step_win cs d w c hmin hw hc
  have hterm : (Trigger.run cs (d + 1)).1.st.isTerminal = true := by
    rw [hst]
    cases c.outcome <;> rfl
  have hfr := Trigger.run_frozen cs (d + 1) hterm n hn
  rw [hfr, hst]
  exact ⟨rfl, rfl, fun j cj hj hd => hcancel j cj hj hd⟩

theorem trigger_race_witness :
    (Trigger.run [⟨2, .ok⟩, ⟨1, .ok⟩, ⟨3, .fault⟩] 4).1.winner =
      some (1, .ok) ∧
    TrigEv.cancelReq 2 ∈ (Trigger.run [⟨2, .ok⟩, ⟨1, .ok⟩, ⟨3, .fault⟩] 4).2 := by
  have h := trigger_race [⟨2, .ok⟩, ⟨1, .ok⟩, ⟨3, .fault⟩] 1 1 4 ⟨1, .ok⟩
    (by decide) (by decide) (by decide) (by decide)
  exact ⟨h.1, h.2.2 2 ⟨3, .fault⟩ (by decide) (by decide)⟩

/-- C6: For every Deferred Value, the first `Resolve` or `Fail` call
publishes the unique terminal result and each registered waiter is
delivered that value or fault exactly once, in FIFO registration
order; any second `Resolve` or `Fail` call returns an error to its
caller and leaves the cell's state and every already-delivered waiter
outcome unchanged; across any operation sequence no waiter is
delivered more often than it registered. -/
theorem deferred_value_contract :
    (∀ ws v, DVState.resolve (.unresolved ws) v =
      (.resolvedWith v, .ok (), ws.map (fun w => ⟨w, .val v⟩)))
    ∧ (∀ ws f, DVState.fail (.unresolved ws) f =
      (.failedWith f, .ok (), ws.map (fun w => ⟨w, .flt f⟩)))
    ∧ (∀ v v2, DVState.resolve (.resolvedWith v) v2 =
      (.resolvedWith v, .error (), []))
    ∧ (∀ v f, DVState.fail (.resolvedWith v) f =
      (.resolvedWith v, .error (), []))
    ∧ (∀ f v, DVState.resolve (.failedWith f) v =
      (.failedWith f, .error (), []))
    ∧ (∀ f f2, DVState.fail (.failedWith f) f2 =
      (.failedWith f, .error (), []))
    ∧ (∀ ws wid, DVState.await (.unresolved ws) wid =
      (.unresolved (ws ++ [wid]), []))
    ∧ (∀ ops wid,
      deliveredCount (DVState.run (.unresolved []) ops).2 wid ≤
        awaitCount ops wid) := by
  refine ⟨fun ws v => rfl, fun ws f => rfl, fun v v2 => rfl,
    fun v f => rfl, fun f v => rfl, fun f f2 => rfl,
    fun ws wid => rfl, ?_⟩
  intro ops wid
  have h := dv_run_count ops (.unresolved []) wid
  simp [DVState.pendingCount] at h
  omega

/-- C7: For every periodic Timer with interval `I > 0`, a single
Kernel step whose delta equals `3 × I` fires exactly 3 notifications
within that step, one per crossed interval (fires numbered 1, 2, 3),
not a single merged notification. -/
theorem timer_catchup (I : Nat) (hI : 0 < I) :
    ((PeriodicTimer.mk0 I).step (3 * I)).2.length = 3 ∧
    ((PeriodicTimer.mk0 I).step (3 * I)).2 = [1, 2, 3] := by
  have h3 : (0 + 3 * I) / I - 0 / I = 3 := by
    rw [Nat.zero_add, Nat.zero_div, Nat.sub_zero]
    exact Nat.mul_div_cancel 3 hI
  simp only [PeriodicTimer.step, PeriodicTimer.mk0]
  rw [h3]
  exact ⟨by decide, by decide⟩

theorem timer_catchup_witness :
    ((PeriodicTimer.mk0 2).step 6).2 = [1, 2, 3] :=
  (timer_catchup 2 (by decide)).2

/-- C8: Constructing a Sequence or a Barrier with an empty child list
succeeds and completes with no result (no child events) on its first
resume, while constructing a Trigger with an empty child list fails at
Factory construction time with a configuration error and never
produces an instance; a non-empty Trigger is accepted. -/
theorem empty_combinators (cs : List SChild) (hcs : cs ≠ []) :
    (Sequence.step [] (Sequence.init [])).1.st = .completed
    ∧ (Sequence.step [] (Sequence.init [])).2 = []
    ∧ Factory.mkSequence [] = .ok (Sequence.init [])
    ∧ Barrier.state (Barrier.run [] 1).1 = .completed
    ∧ (Barrier.run [] 1).2 = []
    ∧ Factory.mkBarrier [] = .ok []
    ∧ Factory.mkTrigger [] = .error .emptyTrigger
    ∧ Factory.mkTrigger cs = .ok (Trigger.init cs) := by
  refine ⟨by decide, by decide, rfl, by decide, by decide, rfl, rfl, ?_⟩
  cases cs with
  | nil => exact absurd rfl hcs
  | cons c t => rfl

theorem empty_combinators_witness :
    Factory.mkTrigger [⟨0, .ok⟩] = .ok (Trigger.init [⟨0, .ok⟩]) :=
  (empty_combinators [⟨0, .ok⟩] (by decide)).2.2.2.2.2.2.2

end Flow

namespace BuildPy

/-- C9 counterexample: `BuildScript.run_command` does propagate an
exception for a command whose executable exists but is not executable:
`subprocess.run` raises `PermissionError`, which is caught by neither
`except` clause, so the call does not return a boolean at all. -/
theorem run_command_counterexample :
    run_command .execPermissionDenied = .error .permissionError ∧
    ∀ b : Bool, run_command .execPermissionDenied ≠ .ok b := by
  refine ⟨rfl, ?_⟩
  intro b h
  exact Except.noConfusion h

/-- C9 (amended): `run_command` converts exactly the two handled
exceptions to `False` — a nonzero exit code (via `CalledProcessError`)
and a missing executable (`FileNotFoundError`); it returns `True` iff
the process completes with exit code zero; any other exception, such
as `PermissionError`, propagates to the caller. -/
theorem run_command_amended (o : ProcOutcome) :
    (∀ c : Int, o = .completes c → run_command o = .ok (decide (c = 0)))
    ∧ (o = .execNotFound → run_command o = .ok false)
    ∧ (run_command o = .ok true ↔ o = .completes 0)
    ∧ (o = .execPermissionDenied →
      run_command o = .error .permissionError) := by
  refine ⟨?_, ?_, ?_, ?_⟩
  · intro c hc
    subst hc
    by_cases h0 : c = 0
    · subst h0; rfl
    · simp [run_command, subprocessRunCheck, h0]
  · intro h; subst h; rfl
  · constructor
    · intro h
      cases o with
      | completes c =>
        by_cases h0 : c = 0
        · rw [h0]
        · simp [run_command, subprocessRunCheck, h0] at h
      | execNotFound => simp [run_command, subprocessRunCheck] at h
      | execPermissionDenied => simp [run_command, subprocessRunCheck] at h
    · intro h; subst h; rfl
  · intro h; subst h; rfl

theorem run_command_amended_witness :
    run_command (.completes 5) = .ok false := by
  have h := (run_command_amended (.completes 5)).1 5 rfl
  simpa using h

end BuildPy

namespace RunTestsPy

/-- C10: `generate_report` returns `True` iff the build succeeded and
no test suite is in the `FAIL` state; in particular it returns `True`
when the build succeeded and every suite is still in the `SKIP` state
(for example when no test suites were discovered or executed). -/
theorem generate_report_verdict (b : BuildReport)
    (suites : List TestSuite) :
    (generate_report b suites = true ↔
      (b.success = true ∧ ∀ s ∈ suites, s.result ≠ .FAIL))
    ∧ ((b.success = true ∧ ∀ s ∈ suites, s.result = .SKIP) →
      generate_report b suites = true) := by
  have hkey : generate_report b suites = true ↔
      (b.success = true ∧ ∀ s ∈ suites, s.result ≠ .FAIL) := by
    unfold generate_report failedSuites
    rw [Bool.and_eq_true]
    have hlen : ((suites.filter (fun s => decide (s.result = .FAIL))).length
        == 0) = true ↔
        suites.filter (fun s => decide (s.result = .FAIL)) = [] := by
      rw [beq_iff_eq, List.length_eq_zero]
    rw [hlen, List.filter_eq_nil_iff]
    simp

  refine ⟨hkey, ?_⟩
  rintro ⟨h1, h2⟩
  exact hkey.mpr ⟨h1, fun s hs => by rw [h2 s hs]; simp⟩

theorem generate_report_verdict_witness :
    generate_report ⟨true, 7⟩ [⟨5, .SKIP, 0⟩, ⟨3, .SKIP, 2⟩] = true :=
  (generate_report_verdict ⟨true, 7⟩ [⟨5, .SKIP, 0⟩, ⟨3, .SKIP, 2⟩]).2
    ⟨rfl, by decide⟩

end RunTestsPy
